import Mathlib

/-!
Verification of the specification of `qwantzle-mistral.rs` against its code.

The repository's only source file, `src/examples/python/xlora_zephyr.py`, is a
client-side usage example: it builds a `Runner` over the
`Which.XLoraMistralGGUF` configuration variant and submits one
`ChatCompletionRequest`.  The runtime the example calls into (model loading,
adapter selection, sampling, session orchestration) is code of the repository
that is not under `src/`; following the spec, those components are modelled
here from the spec's own words, while every concrete value (the example's
configuration and request) is taken verbatim from the source file.

All arithmetic is over `ℚ` so that every definition is executable and every
predicate decidable.
-/

namespace Mistralrs

/-- Token identifiers, indices into the vocabulary. -/
abbrev TokenId := Nat

/-- One chat message, a role/content pair.  From the source: the example sends
`{"role": "user", "content": "What is graphene?"}`. -/
structure Message where
  role : String
  content : String
deriving DecidableEq

/-- The request shape of the source example (`ChatCompletionRequest(...)` in
`src/examples/python/xlora_zephyr.py`): model name, ordered messages and the
sampling configuration.  Note it has no repetition-window field. -/
structure ChatCompletionRequest where
  model : String
  messages : List Message
  max_tokens : Nat
  presence_penalty : ℚ
  top_p : ℚ
  temperature : ℚ
deriving DecidableEq

/-- The `Which.XLoraMistralGGUF(...)` configuration variant, fields exactly as
passed by the source example. -/
structure WhichXLoraMistralGGUF where
  tok_model_id : String
  quantized_model_id : String
  quantized_filename : String
  tokenizer_json : Option String
  repeat_last_n : Nat
  xlora_model_id : String
  order : String
  tgt_non_granular_index : Option Nat
deriving DecidableEq

/-- The exact configuration constructed by `src/examples/python/xlora_zephyr.py`. -/
def exampleWhich : WhichXLoraMistralGGUF :=
  { tok_model_id := "HuggingFaceH4/zephyr-7b-beta"
    quantized_model_id := "TheBloke/zephyr-7B-beta-GGUF"
    quantized_filename := "zephyr-7b-beta.Q4_0.gguf"
    tokenizer_json := none
    repeat_last_n := 64
    xlora_model_id := "lamm-mit/x-lora"
    order := "orderings/xlora-paper-ordering.json"
    tgt_non_granular_index := none }

/-- The exact request sent by `src/examples/python/xlora_zephyr.py`. -/
def exampleRequest : ChatCompletionRequest :=
  { model := "mistral"
    messages := [{ role := "user", content := "What is graphene?" }]
    max_tokens := 256
    presence_penalty := 1
    top_p := 1/10
    temperature := 1/2 }

/-! ### Sampling Controller (spec §4.3)

Modelled from the spec: the Sampling Controller of the runtime is not under
`src/`.  Its contract `next_token(logits, history_window, config) -> TokenId`
applies, in this order: presence penalty, temperature scaling (zero
special-cased to argmax), top-p nucleus filtering, and sampling from the
filtered renormalized distribution. -/

/-- Sampling configuration: the request's decoding parameters together with
the repetition-window size fixed by the `Which` variant. -/
structure SamplingConfig where
  temperature : ℚ
  top_p : ℚ
  presence_penalty : ℚ
  repeat_last_n : Nat
deriving DecidableEq

/-- The repetition window: the last `n` tokens of the history. -/
def lastWindow (n : Nat) (history : List TokenId) : List TokenId :=
  history.drop (history.length - n)

/-- Subtract `p` from the logit of every token id (counting from `i`) that lies
in the window. -/
def penalizeFrom (p : ℚ) (window : List TokenId) (i : Nat) : List ℚ → List ℚ
  | [] => []
  | x :: xs => (if i ∈ window then x - p else x) :: penalizeFrom p window (i + 1) xs

/-- Modelled from the spec: the logits-to-probability normalization of the
missing Sampling Controller.  The spec fixes only that sorting by probability
sorts by logit (a strictly monotone, strictly positive normalization, as
softmax is); to stay inside `ℚ` we use a strictly monotone positive rational
surrogate weight. -/
def posWeight (x : ℚ) : ℚ := if 0 ≤ x then x + 1 else 1 / (1 - x)

/-- Normalize a logit vector to a probability vector (positive weights divided
by their sum). -/
def probs (logits : List ℚ) : List ℚ :=
  let ws := logits.map posWeight
  ws.map (fun w => w / ws.sum)

/-- Descending probability order on (token, probability) pairs, ties broken by
lowest token id, so that sorting is deterministic. -/
def probOrder (a b : TokenId × ℚ) : Prop :=
  b.2 < a.2 ∨ (a.2 = b.2 ∧ a.1 ≤ b.1)

instance : DecidableRel probOrder := fun a b => by
  unfold probOrder; infer_instance

/-- Sort (token, probability) pairs in decreasing probability order. -/
def sortDesc (l : List (TokenId × ℚ)) : List (TokenId × ℚ) :=
  List.insertionSort probOrder l

/-- The smallest leading segment of the (already sorted) candidate list whose
cumulative probability mass reaches `p`; if the whole list does not reach `p`
the whole list is kept. -/
def takeMass (p : ℚ) : List (TokenId × ℚ) → List (TokenId × ℚ)
  | [] => []
  | a :: rest => if p ≤ a.2 then [a] else a :: takeMass (p - a.2) rest

/-- Pick the token whose cumulative-mass interval contains `r`. -/
def pickByMass (r : ℚ) : List (TokenId × ℚ) → TokenId
  | [] => 0
  | [a] => a.1
  | a :: rest => if r < a.2 then a.1 else pickByMass (r - a.2) rest

/-- Modelled from the spec: the runtime's random source is unspecified beyond
determinism under a fixed seed; a deterministic congruential map of the seed
into `[0,1)` stands in for it. -/
def randUnit (seed : Nat) : ℚ := (((seed * 131 + 7) % 97 : Nat) : ℚ) / 97

/-- Greedy argmax helper: `bi` is the best index so far, `bv` its logit, `i`
the index of the head of the remaining list.  A strictly greater logit is
required to displace the incumbent, so the lowest index wins ties. -/
def argmaxAux (bi : Nat) (bv : ℚ) (i : Nat) : List ℚ → Nat
  | [] => bi
  | x :: xs => if bv < x then argmaxAux i x (i + 1) xs else argmaxAux bi bv (i + 1) xs

/-- Index of the first maximal logit (deterministic argmax, lowest-id
tie-break); `0` on the empty vector. -/
def argmaxIdx : List ℚ → Nat
  | [] => 0
  | x :: xs => argmaxAux 0 x 1 xs

/-- Modelled from the spec: `next_token` of the missing Sampling Controller.
In order: (1) presence penalty on tokens in the repetition window, (2)
temperature scaling by division, with temperature zero special-cased to a
deterministic argmax and never a division, (3) top-p nucleus filtering to the
smallest probability-sorted segment of cumulative mass at least `top_p`, (4)
sampling from the filtered, renormalized distribution. -/
def next_token (logits : List ℚ) (history : List TokenId) (cfg : SamplingConfig)
    (seed : Nat) : TokenId :=
  let penalized := penalizeFrom cfg.presence_penalty (lastWindow cfg.repeat_last_n history) 0 logits
  if cfg.temperature = 0 then
    argmaxIdx penalized
  else
    let scaled := penalized.map (fun x => x / cfg.temperature)
    let ws := scaled.map posWeight
    let ps := ws.map (fun w => w / ws.sum)
    let cand := takeMass cfg.top_p (sortDesc ((List.range ps.length).zip ps))
    let total := (cand.map (fun a => a.2)).sum
    pickByMass (randUnit seed) (cand.map (fun a => (a.1, a.2 / total)))

/-! The four stages of §4.3 as standalone functions, used to state the
order-of-application claim. -/

/-- Stage 1: presence penalty over the repetition window. -/
def penaltyStep (cfg : SamplingConfig) (history : List TokenId) (logits : List ℚ) : List ℚ :=
  penalizeFrom cfg.presence_penalty (lastWindow cfg.repeat_last_n history) 0 logits

/-- Stage 2: temperature scaling by division. -/
def temperatureStep (t : ℚ) (logits : List ℚ) : List ℚ :=
  logits.map (fun x => x / t)

/-- Stage 3: top-p nucleus filtering over the probability-sorted vocabulary. -/
def topPStep (p : ℚ) (logits : List ℚ) : List (TokenId × ℚ) :=
  takeMass p (sortDesc ((List.range (probs logits).length).zip (probs logits)))

/-- Renormalize a candidate set to total mass one. -/
def renormalize (cand : List (TokenId × ℚ)) : List (TokenId × ℚ) :=
  cand.map (fun a => (a.1, a.2 / (cand.map (fun b => b.2)).sum))

/-- Stage 4: sample from the filtered, renormalized distribution. -/
def sampleStep (seed : Nat) (cand : List (TokenId × ℚ)) : TokenId :=
  pickByMass (randUnit seed) (renormalize cand)

/-! ### Adapter Selector (spec §4.2) -/

/-- Modelled from the spec: `active_layers` of the missing Adapter Selector.
The ordering declares the layer indices at which adapters apply; with no
cutoff every declared layer is active ("fully granular"), with cutoff `c`
layers at or beyond `c` fall back to base-model-only behaviour.  A pure
function of ordering and cutoff. -/
def active_layers (ordering : List Nat) (cutoff : Option Nat) : List Nat :=
  match cutoff with
  | none => ordering
  | some c => ordering.filter (fun i => decide (i < c))

/-! ### Model Handle loading (spec §4.1) -/

/-- Load-time failure taxonomy (spec §4.1 and §7). -/
inductive LoadError where
  | MissingWeights
  | TokenizerUnresolved
  | OrderingMismatch
deriving DecidableEq

/-- Modelled from the spec: the environment the missing loader inspects — the
parsed content of the adapter ordering file (`none` when absent), the number
of adapter weight groups found, and the model's layer count. -/
structure LoadEnv where
  ordering_file : Option (List Nat)
  num_adapter_groups : Nat
  num_model_layers : Nat
deriving DecidableEq

/-- The expected quantized-weights format tag. -/
def ggufTag : String := ".gguf"

/-- A quantized filename matches the expected format tag (character-level
suffix check). -/
def hasFormatTag (filename : String) : Bool :=
  List.isSuffixOf ggufTag.data filename.data

/-- The tokenizer source is resolvable: an explicit override, or derived from
a nonempty `tok_model_id`. -/
def tokenizerResolvable (which : WhichXLoraMistralGGUF) : Bool :=
  which.tokenizer_json.isSome || decide (which.tok_model_id ≠ "")

/-- The ordering file is structurally consistent: one entry per adapter weight
group, every declared layer index in range. -/
def orderingConsistent (ord : List Nat) (numLayers numGroups : Nat) : Bool :=
  decide (ord.length = numGroups) && ord.all (fun i => decide (i < numLayers))

/-- The architecture name a loaded handle declares.  Modelled from the spec:
the handle's declared capabilities include a model name the Session
Orchestrator checks requests against; for the `XLoraMistralGGUF` variant that
name is the architecture tag, which the example addresses as `"mistral"`. -/
def mistralArch : String := "mistral"

/-- A loaded Model Handle: the configuration it was built from, the validated
adapter ordering, and the model name it declares. -/
structure Handle where
  which : WhichXLoraMistralGGUF
  ordering : List Nat
  modelName : String
deriving DecidableEq

/-- Modelled from the spec: `load(spec) -> Handle | LoadError` of the missing
Model Handle component.  Validates the quantized filename's format tag, the
resolvability of the tokenizer source, and the presence and structural
consistency of the adapter ordering file, in that order; fails only with
`MissingWeights`, `TokenizerUnresolved` or `OrderingMismatch`. -/
def load (which : WhichXLoraMistralGGUF) (env : LoadEnv) : Except LoadError Handle :=
  if ¬ hasFormatTag which.quantized_filename then
    .error .MissingWeights
  else if ¬ tokenizerResolvable which then
    .error .TokenizerUnresolved
  else
    match env.ordering_file with
    | none => .error .OrderingMismatch
    | some ord =>
      if orderingConsistent ord env.num_model_layers env.num_adapter_groups then
        .ok { which := which, ordering := ord, modelName := mistralArch }
      else
        .error .OrderingMismatch

/-! ### Session Orchestrator (spec §4.4) -/

/-- The finish reason reported in a response. -/
inductive FinishReason where
  | Stop
  | Length
  | Error
deriving DecidableEq

/-- Per-request failure taxonomy (spec §4.4 and §7). -/
inductive SessionError where
  | ModelMismatch
  | ContextOverflow
deriving DecidableEq

/-- The response shape: generated tokens plus metadata. -/
structure ChatResponse where
  tokens : List TokenId
  finish_reason : FinishReason
  prompt_tokens : Nat
  completion_tokens : Nat
deriving DecidableEq

/-- A language model, seen by the session layer as a map from context to
next-token logits. -/
abbrev Model := List TokenId → List ℚ

/-- The sampling configuration a handle imposes on a request: the decoding
parameters come from the request, the repetition-window size from the
handle's `Which` variant (it is not a request field). -/
def configOf (handle : Handle) (req : ChatCompletionRequest) : SamplingConfig :=
  { temperature := req.temperature
    top_p := req.top_p
    presence_penalty := req.presence_penalty
    repeat_last_n := handle.which.repeat_last_n }

/-- Modelled from the spec: the autoregressive generation loop of the missing
Session Orchestrator.  Each chosen token is fed back as next-step context;
the loop stops when the sampled token is the end-of-sequence marker
(`FinishReason.Stop`) or when `max_tokens` tokens have been emitted
(`FinishReason.Length`). -/
def genLoop (model : Model) (eos : TokenId) (cfg : SamplingConfig) (seed : Nat)
    (ctx : List TokenId) (acc : List TokenId) : Nat → List TokenId × FinishReason
  | 0 => (acc, .Length)
  | n + 1 =>
    let t := next_token (model ctx) ctx cfg seed
    if t = eos then (acc, .Stop)
    else genLoop model eos cfg (seed + 1) (ctx ++ [t]) (acc ++ [t]) n

/-- Modelled from the spec: `run(request, handle) -> ChatResponse | SessionError`
of the missing Session Orchestrator.  Validates the request's model name
against the loaded handle's declared name, encodes the messages, drives the
generation loop to a stop condition, and assembles the response. -/
def run (model : Model) (encode : List Message → List TokenId) (eos : TokenId)
    (seed : Nat) (req : ChatCompletionRequest) (handle : Handle) :
    Except SessionError ChatResponse :=
  if req.model ≠ handle.modelName then
    .error .ModelMismatch
  else
    let prompt := encode req.messages
    let pr := genLoop model eos (configOf handle req) seed prompt [] req.max_tokens
    .ok { tokens := pr.1
          finish_reason := pr.2
          prompt_tokens := prompt.length
          completion_tokens := pr.1.length }

/-! ### Concrete instances for witnesses -/

/-- A one-token-vocabulary model used to exercise the session layer on a
concrete input. -/
def model0 : Model := fun _ => [5]

/-- A trivial encoder: the example's prompt encoding is external to the core. -/
def encode0 : List Message → List TokenId := fun _ => []

/-- A load environment consistent with the example's ordering file. -/
def env0 : LoadEnv :=
  { ordering_file := some [0, 1], num_adapter_groups := 2, num_model_layers := 32 }

/-- The handle the example's configuration loads to under `env0`. -/
def handle0 : Handle :=
  { which := exampleWhich, ordering := [0, 1], modelName := mistralArch }

/-! ### Claim theorems -/

/-- Claim C6: `active_layers` is a pure function of ordering and cutoff; for
every ordering and cutoff `c` the active set under `some c` is a subset of the
active set under `none`; with no cutoff every declared layer is active; with a
cutoff every layer at or beyond `c` is excluded, and every declared layer
below `c` is kept. -/
theorem active_layers_cutoff_subset (ordering : List Nat) (c : Nat) :
    active_layers ordering (some c) ⊆ active_layers ordering none ∧
    active_layers ordering none = ordering ∧
    (∀ i, i ∈ active_layers ordering (some c) → i < c) ∧
    (∀ i, i ∈ ordering → i < c → i ∈ active_layers ordering (some c)) := by
  refine ⟨?_, rfl, ?_, ?_⟩
  · intro a ha
    simpa [active_layers] using (List.mem_filter.mp ha).1
  · intro i hi
    have := (List.mem_filter.mp hi).2
    simpa using this
  · intro i hi hlt
    exact List.mem_filter.mpr ⟨hi, by simpa using hlt⟩

/-- Witness for C6 at the concrete ordering `[0, 5]` and cutoff `3`. -/
theorem active_layers_cutoff_subset_witness :
    0 ∈ Mistralrs.active_layers [0, 5] (some 3) :=
  (active_layers_cutoff_subset [0, 5] 3).2.2.2 0 (by decide) (by decide)

/-- Claim C10: the repetition-window size used for sampling is the one fixed
in the handle's `Which` variant at `Runner` construction; it is the same for
every request sent through the same handle, and for a handle built from the
example's configuration it is `64`. -/
theorem repeat_last_n_fixed (handle : Handle) (req req2 : ChatCompletionRequest) :
    (configOf handle req).repeat_last_n = handle.which.repeat_last_n ∧
    (configOf handle req).repeat_last_n = (configOf handle req2).repeat_last_n ∧
    (handle.which = exampleWhich → (configOf handle req).repeat_last_n = 64) := by
  refine ⟨rfl, rfl, ?_⟩
  intro h
  simp [configOf, h, exampleWhich]

/-- Witness for C10 at the example's handle and request. -/
theorem repeat_last_n_fixed_witness :
    (configOf handle0 exampleRequest).repeat_last_n = 64 :=
  (repeat_last_n_fixed handle0 exampleRequest exampleRequest).2.2 rfl

/-- Claim C9: generation is deterministic under a fixed seed — for positive
temperature, two runs of `run` with equal seeds (and the same request and
handle) produce identical output.  The embedded runtime is a pure function,
so the only sampling randomness is the seed it is given. -/
theorem run_deterministic_fixed_seed (model : Model) (encode : List Message → List TokenId)
    (eos : TokenId) (s1 s2 : Nat) (req : ChatCompletionRequest) (handle : Handle) :
    0 < req.temperature → s1 = s2 →
    run model encode eos s1 req handle = run model encode eos s2 req handle := by
  intro _ h
  rw [h]

/-- Witness for C9 at the example request (temperature `1/2 > 0`) and seed
`3`. -/
theorem run_deterministic_fixed_seed_witness :
    run model0 encode0 0 3 exampleRequest handle0 = run model0 encode0 0 3 exampleRequest handle0 :=
  run_deterministic_fixed_seed model0 encode0 0 3 3 exampleRequest handle0
    (by norm_num [exampleRequest]) rfl

/-- Claim C3: for every logits vector, history and configuration with nonzero
temperature, `next_token` is exactly the composition of the four stages in
the specified order: presence penalty, then temperature scaling, then top-p
nucleus filtering, then sampling from the filtered renormalized
distribution.  (Zero temperature is special-cased to the greedy argmax.) -/
theorem next_token_stage_order (logits : List ℚ) (history : List TokenId)
    (cfg : SamplingConfig) (seed : Nat) (h : cfg.temperature ≠ 0) :
    next_token logits history cfg seed =
      sampleStep seed (topPStep cfg.top_p
        (temperatureStep cfg.temperature (penaltyStep cfg history logits))) := by
  simp only [next_token, if_neg h, sampleStep, topPStep, temperatureStep, penaltyStep,
    probs, renormalize]

/-- A concrete sampling configuration with unit temperature, used to witness
the stage-order theorem. -/
def cfg1 : SamplingConfig :=
  { temperature := 1, top_p := 1, presence_penalty := 0, repeat_last_n := 64 }

/-- Witness for C3 at a concrete two-token logits vector and temperature `1`. -/
theorem next_token_stage_order_witness :
    next_token [1, 2] [] cfg1 0 =
      sampleStep 0 (topPStep cfg1.top_p (temperatureStep cfg1.temperature
        (penaltyStep cfg1 [] [1, 2]))) :=
  next_token_stage_order [1, 2] [] cfg1 0 (by norm_num [cfg1])

/-- Every successfully loaded handle declares the architecture name. -/
theorem load_ok_modelName (which : WhichXLoraMistralGGUF) (env : LoadEnv) (h : Handle)
    (hl : load which env = .ok h) : h.modelName = mistralArch := by
  cases hfc : hasFormatTag which.quantized_filename with
  | false => simp [load, hfc] at hl
  | true =>
    cases htc : tokenizerResolvable which with
    | false => simp [load, hfc, htc] at hl
    | true =>
      cases henv : env.ordering_file with
      | none => simp [load, hfc, htc, henv] at hl
      | some ord =>
        cases hoc : orderingConsistent ord env.num_model_layers env.num_adapter_groups with
        | false => simp [load, hfc, htc, henv, hoc] at hl
        | true =>
          simp [load, hfc, htc, henv, hoc] at hl
          rw [← hl]

/-- Claim C1: the Session Orchestrator's `run` rejects exactly the requests
whose model name differs from the loaded handle's declared name, and accepts
the rest; the example's request names `"mistral"`, which matches the name
declared by every handle the loader produces, so it is accepted. -/
theorem run_validates_model_name (model : Model) (encode : List Message → List TokenId)
    (eos : TokenId) (seed : Nat) (req : ChatCompletionRequest) (handle : Handle)
    (which : WhichXLoraMistralGGUF) (env : LoadEnv) (h : Handle) :
    (req.model ≠ handle.modelName → run model encode eos seed req handle = .error .ModelMismatch) ∧
    (req.model = handle.modelName → ∃ resp, run model encode eos seed req handle = .ok resp) ∧
    (load which env = .ok h → exampleRequest.model = h.modelName) := by
  refine ⟨?_, ?_, ?_⟩
  · intro hne
    unfold run
    rw [if_pos hne]
  · intro heq
    unfold run
    rw [if_neg (by simp [heq])]
    exact ⟨_, rfl⟩
  · intro hl
    rw [load_ok_modelName which env h hl]
    rfl

/-- A request naming a model other than the loaded one, used to witness the
rejection case of C1. -/
def zephyrRequest : ChatCompletionRequest :=
  { exampleRequest with model := "zephyr" }

/-- Witness for C1: the mismatching request is rejected, and the example's
request name matches the name a concretely loaded handle declares. -/
theorem run_validates_model_name_witness :
    run model0 encode0 0 0 zephyrRequest handle0 = .error .ModelMismatch ∧
    exampleRequest.model = handle0.modelName := by
  have h := run_validates_model_name model0 encode0 0 0 zephyrRequest handle0
    exampleWhich env0 handle0
  exact ⟨h.1 (by decide), h.2.2 rfl⟩

/-- Claim C8: `load` fails only with one of the three declared load errors;
when the filename and tokenizer validations pass, a malformed ordering file
with a layer index out of range makes `load` fail with `OrderingMismatch`
before any handle (hence any request) can exist; and a successful load implies
all three validations passed. -/
theorem load_validates (which : WhichXLoraMistralGGUF) (env : LoadEnv) :
    (∀ e, load which env = .error e →
      e = .MissingWeights ∨ e = .TokenizerUnresolved ∨ e = .OrderingMismatch) ∧
    (hasFormatTag which.quantized_filename = true →
      tokenizerResolvable which = true →
      ∀ ord, env.ordering_file = some ord →
      (∃ i, i ∈ ord ∧ env.num_model_layers ≤ i) →
      load which env = .error .OrderingMismatch) ∧
    (∀ h, load which env = .ok h →
      hasFormatTag which.quantized_filename = true ∧
      tokenizerResolvable which = true ∧
      ∃ ord, env.ordering_file = some ord ∧
        orderingConsistent ord env.num_model_layers env.num_adapter_groups = true) := by
  refine ⟨?_, ?_, ?_⟩
  · intro e _
    cases e
    · exact Or.inl rfl
    · exact Or.inr (Or.inl rfl)
    · exact Or.inr (Or.inr rfl)
  · rintro hf ht ord hord ⟨i, hi, hge⟩
    have hcon : ¬ (orderingConsistent ord env.num_model_layers env.num_adapter_groups = true) := by
      intro hc
      simp only [orderingConsistent, Bool.and_eq_true, List.all_eq_true, decide_eq_true_eq] at hc
      exact absurd (hc.2 i hi) (by omega)
    simp [load, hf, ht, hord, hcon]
  · intro h hl
    cases hfc : hasFormatTag which.quantized_filename with
    | false => simp [load, hfc] at hl
    | true =>
      cases htc : tokenizerResolvable which with
      | false => simp [load, hfc, htc] at hl
      | true =>
        cases henv : env.ordering_file with
        | none => simp [load, hfc, htc, henv] at hl
        | some ord =>
          cases hoc : orderingConsistent ord env.num_model_layers env.num_adapter_groups with
          | false => simp [load, hfc, htc, henv, hoc] at hl
          | true => exact ⟨rfl, rfl, ord, rfl, hoc⟩

/-- A load environment whose ordering file declares the out-of-range layer
index `40` for a 32-layer model. -/
def envBadOrder : LoadEnv :=
  { ordering_file := some [40], num_adapter_groups := 1, num_model_layers := 32 }

/-- Witness for C8: the example's configuration with a malformed ordering file
fails to load with `OrderingMismatch`. -/
theorem load_validates_witness :
    load exampleWhich envBadOrder = .error .OrderingMismatch :=
  (load_validates exampleWhich envBadOrder).2.1 (by decide) (by decide)
    [40] rfl ⟨40, by decide, by decide⟩

/-- Structural invariant of the generation loop: it finishes with `Stop` or
`Length` and never `Error`; it finishes with `Length` exactly when it emitted
all `n` remaining tokens, and with `Stop` exactly when it emitted fewer. -/
theorem genLoop_spec (model : Model) (eos : TokenId) (cfg : SamplingConfig) :
    ∀ (n seed : Nat) (ctx acc : List TokenId),
      ((genLoop model eos cfg seed ctx acc n).2 = .Stop ∨
        (genLoop model eos cfg seed ctx acc n).2 = .Length) ∧
      ((genLoop model eos cfg seed ctx acc n).2 = .Length ↔
        (genLoop model eos cfg seed ctx acc n).1.length = acc.length + n) ∧
      ((genLoop model eos cfg seed ctx acc n).2 = .Stop ↔
        (genLoop model eos cfg seed ctx acc n).1.length < acc.length + n) := by
  intro n
  induction n with
  | zero =>
    intro seed ctx acc
    simp [genLoop]
  | succ n ih =>
    intro seed ctx acc
    simp only [genLoop]
    by_cases ht : next_token (model ctx) ctx cfg seed = eos
    · rw [if_pos ht]
      refine ⟨Or.inl rfl, by simp; try omega, by simp; try omega⟩
    · rw [if_neg ht]
      obtain ⟨ha, hb, hc⟩ := ih (seed + 1) (ctx ++ [next_token (model ctx) ctx cfg seed])
        (acc ++ [next_token (model ctx) ctx cfg seed])
      refine ⟨ha, ?_, ?_⟩
      · rw [hb]
        simp [List.length_append]
        omega
      · rw [hc]
        simp [List.length_append]
        omega

/-- Claim C5: starting from an empty output, the generation loop with budget
`N` reports `Length` precisely when it emitted exactly `N` tokens with no end
marker, reports `Stop` precisely when the end-of-sequence marker cut it short
before `N` tokens, and reports nothing else. -/
theorem generation_stop_conditions (model : Model) (eos : TokenId) (cfg : SamplingConfig)
    (seed : Nat) (ctx : List TokenId) (N : Nat) :
    ((genLoop model eos cfg seed ctx [] N).1.length < N →
      (genLoop model eos cfg seed ctx [] N).2 = .Stop) ∧
    ((genLoop model eos cfg seed ctx [] N).1.length = N →
      (genLoop model eos cfg seed ctx [] N).2 = .Length) ∧
    ((genLoop model eos cfg seed ctx [] N).2 = .Stop ∨
      (genLoop model eos cfg seed ctx [] N).2 = .Length) := by
  obtain ⟨ha, hb, hc⟩ := genLoop_spec model eos cfg N seed ctx []
  simp only [List.length_nil, Nat.zero_add] at hb hc
  exact ⟨fun h => hc.mpr h, fun h => hb.mpr h, ha⟩

/-- A greedy sampling configuration used to witness the stop conditions. -/
def cfgGreedy : SamplingConfig :=
  { temperature := 0, top_p := 1, presence_penalty := 1, repeat_last_n := 64 }

/-- Witness for C5: on the one-token-vocabulary model whose only token is the
end marker, the loop stops with `Stop` having emitted fewer than `5` tokens. -/
theorem generation_stop_conditions_witness :
    (genLoop model0 0 cfgGreedy 0 [] [] 5).2 = .Stop :=
  (generation_stop_conditions model0 0 cfgGreedy 0 [] 5).1
    (by simp [genLoop, model0, next_token, cfgGreedy, penalizeFrom, lastWindow,
      argmaxIdx, argmaxAux])

/-- Claim C2: any `ChatResponse` successfully returned for the example request
(`max_tokens = 256`) counts at most `256` completion tokens and reports
`Stop` or `Length`, never `Error`. -/
theorem example_request_bounded (model : Model) (encode : List Message → List TokenId)
    (eos : TokenId) (seed : Nat) (handle : Handle) (resp : ChatResponse)
    (h : run model encode eos seed exampleRequest handle = .ok resp) :
    resp.completion_tokens ≤ 256 ∧
    (resp.finish_reason = .Stop ∨ resp.finish_reason = .Length) := by
  unfold run at h
  by_cases hm : exampleRequest.model ≠ handle.modelName
  · rw [if_pos hm] at h
    exact absurd h (by simp)
  · rw [if_neg hm] at h
    injection h with h3
    obtain ⟨ha, hb, hc⟩ := genLoop_spec model eos (configOf handle exampleRequest)
      exampleRequest.max_tokens seed (encode exampleRequest.messages) []
    rw [← h3]
    refine ⟨?_, ha⟩
    rcases ha with hs | hl
    · have := hc.mp hs
      simp only [List.length_nil, Nat.zero_add] at this
      exact Nat.le_of_lt this
    · have := hb.mp hl
      simp only [List.length_nil, Nat.zero_add] at this
      exact Nat.le_of_eq this

/-- The response the witness instance of C2 computes. -/
def resp0 : ChatResponse :=
  { tokens := [], finish_reason := .Stop, prompt_tokens := 0, completion_tokens := 0 }

/-- Witness for C2: on a concrete one-token-vocabulary model the example
request is served with zero completion tokens and finish reason `Stop`. -/
theorem example_request_bounded_witness :
    resp0.completion_tokens ≤ 256 ∧
    (resp0.finish_reason = .Stop ∨ resp0.finish_reason = .Length) :=
  example_request_bounded model0 encode0 0 0 handle0 resp0 (by
    have ht : next_token (model0 []) [] (configOf handle0 exampleRequest) 0 = 0 := by
      norm_num [model0, next_token, configOf, handle0, exampleWhich, exampleRequest,
        penalizeFrom, lastWindow, posWeight, sortDesc, List.insertionSort,
        List.orderedInsert, takeMass, pickByMass, randUnit, List.range_succ]
    have hg : genLoop model0 0 (configOf handle0 exampleRequest) 0 [] [] 256
        = ([], FinishReason.Stop) := by
      show genLoop model0 0 (configOf handle0 exampleRequest) 0 [] [] (255 + 1)
        = ([], FinishReason.Stop)
      rw [genLoop, ht]
      simp
    show run model0 encode0 0 0 exampleRequest handle0 = Except.ok resp0
    unfold run
    rw [if_neg (by simp [exampleRequest, handle0, mistralArch])]
    show Except.ok
        { tokens := (genLoop model0 0 (configOf handle0 exampleRequest) 0 [] [] 256).1
          finish_reason := (genLoop model0 0 (configOf handle0 exampleRequest) 0 [] [] 256).2
          prompt_tokens := ([] : List TokenId).length
          completion_tokens :=
            (genLoop model0 0 (configOf handle0 exampleRequest) 0 [] [] 256).1.length }
      = Except.ok resp0
    rw [hg]
    rfl)

/-- An empty repetition window leaves the logits unchanged. -/
theorem penalizeFrom_nil (p : ℚ) (i : Nat) (l : List ℚ) : penalizeFrom p [] i l = l := by
  induction l generalizing i with
  | nil => rfl
  | cons x xs ih => simp [penalizeFrom, ih]

/-- Invariant of the greedy scan: starting from incumbent index `bi` with
logit `bv` at offset `i`, the scan either keeps the incumbent (everything
scanned is at most `bv`) or lands at offset `i + k` on a strictly better
element that is maximal and strictly above every earlier scanned element. -/
theorem argmaxAux_spec (xs : List ℚ) :
    ∀ (bi : Nat) (bv : ℚ) (i : Nat),
      (argmaxAux bi bv i xs = bi ∧ ∀ k (hk : k < xs.length), xs[k] ≤ bv) ∨
      (∃ k, ∃ hk : k < xs.length, argmaxAux bi bv i xs = i + k ∧ bv < xs[k] ∧
        (∀ j (hj : j < xs.length), xs[j] ≤ xs[k]) ∧
        (∀ j (hj : j < k), xs[j] < xs[k])) := by
  induction xs with
  | nil =>
    intro bi bv i
    left
    exact ⟨rfl, fun k hk => absurd hk (by simp)⟩
  | cons x xs ih =>
    intro bi bv i
    by_cases hx : bv < x
    · have h1 : argmaxAux bi bv i (x :: xs) = argmaxAux i x (i + 1) xs := by
        simp [argmaxAux, hx]
      rcases ih i x (i + 1) with ⟨ha, hb⟩ | ⟨k, hk, hr, hgt, hmax, hstrict⟩
      · right
        refine ⟨0, by simp, ?_, ?_, ?_, ?_⟩
        · rw [h1, ha]; omega
        · simpa using hx
        · intro j hj
          cases j with
          | zero => simp
          | succ j' =>
            simp only [List.getElem_cons_succ, List.getElem_cons_zero]
            exact hb j' (by simp only [List.length_cons] at hj; omega)
        · intro j hj
          exact absurd hj (Nat.not_lt_zero j)
      · right
        refine ⟨k + 1, by simp only [List.length_cons]; omega, ?_, ?_, ?_, ?_⟩
        · rw [h1, hr]; omega
        · simp only [List.getElem_cons_succ]
          exact lt_trans hx hgt
        · intro j hj
          cases j with
          | zero =>
            simp only [List.getElem_cons_zero, List.getElem_cons_succ]
            exact le_of_lt hgt
          | succ j' =>
            simp only [List.getElem_cons_succ]
            exact hmax j' (by simp only [List.length_cons] at hj; omega)
        · intro j hj
          cases j with
          | zero =>
            simp only [List.getElem_cons_zero, List.getElem_cons_succ]
            exact hgt
          | succ j' =>
            simp only [List.getElem_cons_succ]
            exact hstrict j' (by omega)
    · have h1 : argmaxAux bi bv i (x :: xs) = argmaxAux bi bv (i + 1) xs := by
        simp [argmaxAux, hx]
      rcases ih bi bv (i + 1) with ⟨ha, hb⟩ | ⟨k, hk, hr, hgt, hmax, hstrict⟩
      · left
        refine ⟨by rw [h1, ha], ?_⟩
        intro k hk
        cases k with
        | zero => simpa using not_lt.mp hx
        | succ k' =>
          simp only [List.getElem_cons_succ]
          exact hb k' (by simp only [List.length_cons] at hk; omega)
      · right
        refine ⟨k + 1, by simp only [List.length_cons]; omega, ?_, ?_, ?_, ?_⟩
        · rw [h1, hr]; omega
        · simp only [List.getElem_cons_succ]
          exact hgt
        · intro j hj
          cases j with
          | zero =>
            simp only [List.getElem_cons_zero, List.getElem_cons_succ]
            exact le_trans (not_lt.mp hx) (le_of_lt hgt)
          | succ j' =>
            simp only [List.getElem_cons_succ]
            exact hmax j' (by simp only [List.length_cons] at hj; omega)
        · intro j hj
          cases j with
          | zero =>
            simp only [List.getElem_cons_zero, List.getElem_cons_succ]
            exact lt_of_le_of_lt (not_lt.mp hx) hgt
          | succ j' =>
            simp only [List.getElem_cons_succ]
            exact hstrict j' (by omega)

/-- On a nonempty logits vector, `argmaxIdx` returns an in-range index whose
logit is maximal and which is the lowest index attaining the maximum. -/
theorem argmaxIdx_spec (l : List ℚ) (hne : l ≠ []) :
    ∃ m, argmaxIdx l = m ∧ ∃ hm : m < l.length,
      (∀ j (hj : j < l.length), l[j] ≤ l[m]) ∧
      (∀ j (hj : j < m), l[j] < l[m]) := by
  cases l with
  | nil => exact absurd rfl hne
  | cons x xs =>
    rcases argmaxAux_spec xs 0 x 1 with ⟨ha, hb⟩ | ⟨k, hk, hr, hgt, hmax, hstrict⟩
    · refine ⟨0, by simpa [argmaxIdx] using ha, by simp, ?_, ?_⟩
      · intro j hj
        cases j with
        | zero => simp
        | succ j' =>
          simp only [List.getElem_cons_succ, List.getElem_cons_zero]
          exact hb j' (by simp only [List.length_cons] at hj; omega)
      · intro j hj
        exact absurd hj (Nat.not_lt_zero j)
    · refine ⟨k + 1, ?_, by simp only [List.length_cons]; omega, ?_, ?_⟩
      · simp only [argmaxIdx]
        rw [hr]
        omega
      · intro j hj
        cases j with
        | zero =>
          simp only [List.getElem_cons_zero, List.getElem_cons_succ]
          exact le_of_lt hgt
        | succ j' =>
          simp only [List.getElem_cons_succ]
          exact hmax j' (by simp only [List.length_cons] at hj; omega)
      · intro j hj
        cases j with
        | zero =>
          simp only [List.getElem_cons_zero, List.getElem_cons_succ]
          exact hgt
        | succ j' =>
          simp only [List.getElem_cons_succ]
          exact hstrict j' (by omega)

/-- Claim C4: at temperature zero, `next_token` performs no division — it is
the deterministic greedy argmax of the penalized logits — and on an empty
history it returns, for every logits vector including tied maxima, the index
of a maximal logit, with the lowest such index as the tie-break. -/
theorem next_token_zero_temperature (logits : List ℚ) (cfg : SamplingConfig)
    (seed : Nat) (h0 : cfg.temperature = 0) :
    (∀ history, next_token logits history cfg seed =
      argmaxIdx (penaltyStep cfg history logits)) ∧
    (logits ≠ [] →
      ∃ m : Nat, next_token logits [] cfg seed = m ∧ ∃ hm : m < logits.length,
        (∀ j (hj : j < logits.length), logits[j] ≤ logits[m]) ∧
        (∀ j (hj : j < m), logits[j] < logits[m])) := by
  have hnt : ∀ history, next_token logits history cfg seed =
      argmaxIdx (penaltyStep cfg history logits) := by
    intro history
    simp [next_token, penaltyStep, h0]
  refine ⟨hnt, ?_⟩
  intro hne
  obtain ⟨m, hm_eq, hm, hmax, hstrict⟩ := argmaxIdx_spec logits hne
  have hw : penaltyStep cfg [] logits = logits := by
    simp [penaltyStep, lastWindow, penalizeFrom_nil]
  refine ⟨m, ?_, hm, hmax, hstrict⟩
  rw [hnt [], hw]
  exact hm_eq

/-- A logits vector with a tied maximum. -/
def tiedLogits : List ℚ := [3, 7, 7]

/-- Witness for C4 at the tied logits vector `[3, 7, 7]` under the greedy
configuration: the sampler reduces to the argmax, and a maximal lowest index
exists. -/
theorem next_token_zero_temperature_witness :
    next_token tiedLogits [] cfgGreedy 0 = argmaxIdx (penaltyStep cfgGreedy [] tiedLogits) ∧
    ∃ m : Nat, next_token tiedLogits [] cfgGreedy 0 = m ∧ ∃ hm : m < tiedLogits.length,
      (∀ j (hj : j < tiedLogits.length), tiedLogits[j] ≤ tiedLogits[m]) ∧
      (∀ j (hj : j < m), tiedLogits[j] < tiedLogits[m]) := by
  have h := next_token_zero_temperature tiedLogits cfgGreedy 0 rfl
  exact ⟨h.1 [], h.2 (by simp [tiedLogits])⟩

/-- The surrogate weight is strictly positive on all of `ℚ`. -/
theorem posWeight_pos (x : ℚ) : 0 < posWeight x := by
  rcases le_or_lt 0 x with h | h
  · rw [posWeight, if_pos h]
    linarith
  · rw [posWeight, if_neg (not_le.mpr h)]
    apply div_pos one_pos
    linarith

/-- Dividing each entry by a constant divides the sum. -/
theorem sum_map_div (l : List ℚ) (c : ℚ) : (l.map (fun x => x / c)).sum = l.sum / c := by
  induction l with
  | nil => simp
  | cons x xs ih => simp [ih, add_div]

/-- `probs` preserves length. -/
theorem probs_length (logits : List ℚ) : (probs logits).length = logits.length := by
  simp [probs]

/-- The weight sum of a nonempty logits vector is strictly positive. -/
theorem weights_sum_pos (logits : List ℚ) (hne : logits ≠ []) :
    0 < (logits.map posWeight).sum := by
  apply List.sum_pos
  · intro y hy
    obtain ⟨x, _, rfl⟩ := List.mem_map.mp hy
    exact posWeight_pos x
  · simpa using hne

/-- Every probability of a nonempty logits vector is strictly positive. -/
theorem probs_pos (logits : List ℚ) (hne : logits ≠ []) :
    ∀ q ∈ probs logits, 0 < q := by
  intro q hq
  simp only [probs, List.mem_map] at hq
  obtain ⟨w, hw, rfl⟩ := hq
  apply div_pos
  · obtain ⟨x, _, rfl⟩ := hw
    exact posWeight_pos x
  · exact weights_sum_pos logits hne

/-- The probabilities of a nonempty logits vector sum to one. -/
theorem probs_sum (logits : List ℚ) (hne : logits ≠ []) : (probs logits).sum = 1 := by
  simp only [probs]
  rw [sum_map_div]
  exact div_self (ne_of_gt (weights_sum_pos logits hne))

/-- If every entry is positive and the whole mass does not exceed `p`, the
nucleus cut keeps the entire candidate list. -/
theorem takeMass_all :
    ∀ (l : List (TokenId × ℚ)) (p : ℚ), (∀ a ∈ l, 0 < a.2) →
      (l.map (fun a => a.2)).sum ≤ p → takeMass p l = l := by
  intro l
  induction l with
  | nil => intro p _ _; rfl
  | cons a rest ih =>
    intro p hpos hsum
    simp only [List.map_cons, List.sum_cons] at hsum
    by_cases hp : p ≤ a.2
    · cases rest with
      | nil => simp [takeMass, hp]
      | cons b rest2 =>
        exfalso
        have hb : 0 < b.2 := hpos b (by simp)
        have hrest2 : 0 ≤ (rest2.map (fun a => a.2)).sum := by
          apply List.sum_nonneg
          intro x hx
          obtain ⟨c, hc, rfl⟩ := List.mem_map.mp hx
          exact le_of_lt (hpos c (by simp [hc]))
        simp only [List.map_cons, List.sum_cons] at hsum
        linarith
    · rw [show takeMass p (a :: rest) =
          if p ≤ a.2 then [a] else a :: takeMass (p - a.2) rest from rfl, if_neg hp]
      congr 1
      exact ih (p - a.2) (fun b hb => hpos b (List.mem_cons_of_mem a hb)) (by linarith)

/-- Claim C7: with `top_p = 1` the nucleus filtering stage keeps the whole
vocabulary — the candidate token ids are a permutation of all token ids of
the logits vector. -/
theorem topP_one_full_vocab (logits : List ℚ) (hne : logits ≠ []) :
    List.Perm ((topPStep 1 logits).map (fun a => a.1)) (List.range logits.length) := by
  have hperm : List.Perm (sortDesc ((List.range (probs logits).length).zip (probs logits)))
      ((List.range (probs logits).length).zip (probs logits)) :=
    List.perm_insertionSort probOrder _
  have hlen : (List.range (probs logits).length).length = (probs logits).length := by
    simp
  have hsnd : ((List.range (probs logits).length).zip (probs logits)).map (fun a => a.2)
      = probs logits :=
    List.map_snd_zip _ _ (le_of_eq hlen.symm)
  have hfst : ((List.range (probs logits).length).zip (probs logits)).map (fun a => a.1)
      = List.range (probs logits).length :=
    List.map_fst_zip _ _ (le_of_eq hlen)
  have hpos : ∀ a ∈ sortDesc ((List.range (probs logits).length).zip (probs logits)), 0 < a.2 := by
    intro a ha
    have hmem : a ∈ (List.range (probs logits).length).zip (probs logits) :=
      hperm.mem_iff.mp ha
    have : a.2 ∈ probs logits := by
      rw [← hsnd]
      exact List.mem_map_of_mem _ hmem
    exact probs_pos logits hne a.2 this
  have hsum : ((sortDesc ((List.range (probs logits).length).zip (probs logits))).map
      (fun a => a.2)).sum = 1 := by
    rw [(hperm.map (fun a => a.2)).sum_eq, hsnd]
    exact probs_sum logits hne
  have htake : takeMass 1 (sortDesc ((List.range (probs logits).length).zip (probs logits)))
      = sortDesc ((List.range (probs logits).length).zip (probs logits)) :=
    takeMass_all _ 1 hpos (le_of_eq hsum)
  rw [show topPStep 1 logits
      = takeMass 1 (sortDesc ((List.range (probs logits).length).zip (probs logits))) from rfl,
    htake]
  have hmap := hperm.map (fun a => a.1)
  rw [hfst] at hmap
  rw [probs_length] at hmap ⊢
  exact hmap

/-- Witness for C7 at the singleton logits vector `[0]`. -/
theorem topP_one_full_vocab_witness :
    List.Perm ((topPStep 1 [0]).map (fun a => a.1)) (List.range 1) :=
  topP_one_full_vocab [0] (by simp)

end Mistralrs
